import Mathlib

set_option maxHeartbeats 1000000

/-!
Shallow embedding of the wxt-lanhu tree-construction and spatial-query core
(src/lib/lanhu.ts plus the pure query helpers of src/entrypoints/popup/App.tsx).

JavaScript numbers appearing in geometry are modelled as rationals when finite;
the separate non-finite case (NaN, plus or minus infinity) is kept as an explicit
constructor so that the Number.isFinite checks of the source are meaningful.
JavaScript objects (Record<string, T>) are modelled as association lists with
JS-object assignment semantics: overwriting an existing key keeps its position,
a new key is appended (insertion order = JS enumeration order).
-/

namespace WxtLanhu

/-- A JavaScript number as stored in a rectangle field: finite (a rational) or
non-finite (NaN or an infinity), which Number.isFinite rejects. -/
inductive JNum where
  | fin (q : ℚ)
  | nonfinite
deriving DecidableEq

/-- A JSON-like JavaScript value, including undefined (needed by compactJson,
whose input may contain undefined entries). -/
inductive JVal where
  | null
  | undef
  | bool (b : Bool)
  | num (q : ℚ)
  | nnum
  | str (s : String)
  | arr (elems : List JVal)
  | obj (entries : List (String × JVal))

/-- Partial<LanhuRect> from the source: each of the four fields may be absent,
and a present field may be a non-finite number. -/
structure PartRect where
  left : Option JNum
  top : Option JNum
  width : Option JNum
  height : Option JNum
deriving DecidableEq

/-- A fully resolved rectangle (all four fields finite numbers). -/
structure RectQ where
  left : ℚ
  top : ℚ
  width : ℚ
  height : ℚ
deriving DecidableEq

/-- The named non-children attributes of a LanhuLayerNode. The three rectangle
variants follow the source type Partial<LanhuRect>; type may be a string or
null; the opaque presentation attributes are carried as JSON values. -/
structure NodeFields where
  name : Option String
  type : Option (Option String)
  frame : Option PartRect
  realFrame : Option PartRect
  combinedFrame : Option PartRect
  transform : Option JVal
  opacity : Option JVal
  visible : Option JVal
  rotation : Option JVal
  clipped : Option JVal
  isMask : Option JVal
  origin : Option JVal
  radius : Option JVal
  style : Option JVal
  paths : Option JVal
  text : Option JVal
  image : Option JVal
  sharedStyle : Option JVal

/-- NodeFields with every attribute absent. -/
def emptyFields : NodeFields :=
  ⟨none, none, none, none, none, none, none, none, none, none, none, none,
   none, none, none, none, none, none⟩

/-- An entry of a layers array in the source document: either not an object
(skipped by the traversal) or a layer node with an optional id, its named
fields, and its (possibly empty) layers array. A missing or non-array layers
value behaves exactly like an empty list in every code path modelled here. -/
inductive LItem where
  | nonObj
  | node (id : Option String) (fields : NodeFields) (layers : List LItem)

/-- The input document: an optional artboard (absent, a non-object value, or a
layer node). -/
structure SketchJson where
  artboard : Option LItem

/-- JS object read: first entry with the given key. -/
def objGet (m : List (String × α)) (k : String) : Option α :=
  (m.find? (fun p => p.1 == k)).map (fun p => p.2)

/-- JS object write: overwrite an existing key in place, else append. -/
def objSet (m : List (String × α)) (k : String) (v : α) : List (String × α) :=
  if m.any (fun p => p.1 == k) then
    m.map (fun p => if p.1 == k then (k, v) else p)
  else
    m ++ [(k, v)]

/-- The (childrenById[parentId] ??= []).push(id) idiom: append v to the list
stored at k, creating a singleton list when k is absent. -/
def objPush (m : List (String × List String)) (k : String) (v : String) :
    List (String × List String) :=
  match objGet m k with
  | some l => objSet m k (l ++ [v])
  | none => objSet m k [v]

/-- Keys of a JS object in enumeration order. -/
def keysOf (m : List (String × α)) : List String := m.map (fun p => p.1)

/-- Truthiness of a JS string-or-missing value: false for undefined, null and
the empty string. -/
def validId : Option String → Option String
  | some s => if s = "" then none else some s
  | none => none

/-- The source predicate isFiniteNumber applied to an optional field value:
true exactly when the field is present and a finite number. -/
def isFiniteNumber : Option JNum → Bool
  | some (.fin _) => true
  | _ => false

/-- getNodeRect from src/lib/lanhu.ts: frame ?? realFrame ?? combinedFrame,
then accept only if all four fields are present finite numbers. -/
def getNodeRect (node : NodeFields) : Option RectQ :=
  match node.frame <|> node.realFrame <|> node.combinedFrame with
  | none => none
  | some fr =>
    match fr.left, fr.top, fr.width, fr.height with
    | some (.fin l), some (.fin t), some (.fin w), some (.fin h) =>
        some { left := l, top := t, width := w, height := h }
    | _, _, _, _ => none

/-- Resolution of a single rectangle source: the acceptance test of getNodeRect
applied to one candidate, used to state the no-fallback property. -/
def resolvePartRect (fr : PartRect) : Option RectQ :=
  match fr.left, fr.top, fr.width, fr.height with
  | some (.fin l), some (.fin t), some (.fin w), some (.fin h) =>
      some { left := l, top := t, width := w, height := h }
  | _, _, _, _ => none

/-- getNodeRect reading its input through an LItem (tree nodes are always the
node constructor; a non-object never reaches nodesById). -/
def getNodeRectItem : LItem → Option RectQ
  | .nonObj => none
  | .node _ f _ => getNodeRect f

mutual
/-- Size of a layer item (1 for the item plus the sizes of its layers),
the termination measure of the work-stack traversal. -/
def itemSize : LItem → Nat
  | .nonObj => 1
  | .node _ _ layers => 1 + listSize layers
/-- Total size of a layers list. -/
def listSize : List LItem → Nat
  | [] => 0
  | n :: ns => itemSize n + listSize ns
end

/-- The three mutable mappings built by parseLanhuTree while traversing. -/
structure TState where
  nodesById : List (String × LItem)
  childrenById : List (String × List String)
  parentById : List (String × Option String)

/-- The LanhuTree result type of parseLanhuTree. -/
structure LanhuTree where
  nodesById : List (String × LItem)
  childrenById : List (String × List String)
  parentById : List (String × Option String)
  rootIds : List String

/-- The empty tree index (the degenerate result for invalid documents). -/
def emptyTree : LanhuTree := ⟨[], [], [], []⟩

/-- The body of the for-loop of parseLanhuTree for one queued node: skip
non-objects and nodes with a falsy id; otherwise register the node in all
three mappings and, when its layers list is non-empty, produce the work-stack
frame (id, layers) to be pushed. -/
def processNode (st : TState) (parentId : String) : LItem → TState × List (String × List LItem)
  | .nonObj => (st, [])
  | .node id f layers =>
    match validId id with
    | none => (st, [])
    | some i =>
      let st2 : TState :=
        { nodesById := objSet st.nodesById i (.node id f layers)
          parentById := objSet st.parentById i (some parentId)
          childrenById := objPush st.childrenById parentId i }
      if layers.isEmpty then (st2, []) else (st2, [(i, layers)])

/-- One popped frame of the work stack: run the for-loop over its nodes,
collecting the frames pushed (in push order). -/
def processFrame (st : TState) (parentId : String) : List LItem → TState × List (String × List LItem)
  | [] => (st, [])
  | n :: ns =>
    let r1 := processNode st parentId n
    let r2 := processFrame r1.1 parentId ns
    (r2.1, r1.2 ++ r2.2)

/-- Combined size of the frames of a work stack. -/
def stackMeasure (stack : List (String × List LItem)) : Nat :=
  match stack with
  | [] => 0
  | f :: rest => 1 + listSize f.2 + stackMeasure rest

/-- The while-loop of parseLanhuTree: pop the top frame (the head here; the
source pops the end of a JS array, frames pushed within one iteration are
therefore reversed before being prepended), process it, repeat until the
stack is empty. -/
def runStack (st : TState) (stack : List (String × List LItem)) : TState :=
  match stack with
  | [] => st
  | (pid, nodes) :: rest =>
      runStack (processFrame st pid nodes).1
        ((processFrame st pid nodes).2.reverse ++ rest)
termination_by stackMeasure stack
decreasing_by
  have happ : ∀ a b : List (String × List LItem),
      stackMeasure (a ++ b) = stackMeasure a + stackMeasure b := by
    intro a b
    induction a with
    | nil => simp [stackMeasure]
    | cons f r2 ih => simp [stackMeasure, ih]; omega
  have hrev : ∀ a : List (String × List LItem),
      stackMeasure a.reverse = stackMeasure a := by
    intro a
    induction a with
    | nil => rfl
    | cons f r2 ih => simp [List.reverse_cons, happ, stackMeasure, ih]; omega
  have hnode : ∀ (st2 : TState) (n : LItem),
      stackMeasure (processNode st2 pid n).2 ≤ itemSize n := by
    intro st2 n
    cases n with
    | nonObj => simp [processNode, stackMeasure, itemSize]
    | node id f layers =>
        cases h : validId id with
        | none => simp [processNode, h, stackMeasure]
        | some i =>
            cases layers with
            | nil => simp [processNode, h, stackMeasure, List.isEmpty]
            | cons a l =>
                simp only [processNode, h, List.isEmpty, if_false,
                  Bool.false_eq_true, ite_false, stackMeasure, itemSize]
                omega
  have hframe : ∀ (ns : List LItem) (st2 : TState),
      stackMeasure (processFrame st2 pid ns).2 ≤ listSize ns := by
    intro ns
    induction ns with
    | nil => intro _; simp [processFrame, stackMeasure, listSize]
    | cons n r2 ih =>
        intro st2
        have h1 := hnode st2 n
        have h2 := ih (processNode st2 pid n).1
        simp only [processFrame, listSize, happ]
        omega
  simp only [happ, hrev, stackMeasure]
  have := hframe nodes st
  omega

/-- parseLanhuTree from src/lib/lanhu.ts: empty index when the artboard is
absent, not an object, or has a falsy id; otherwise register the artboard as
the sole root and run the work-stack traversal over its layers. -/
def parseLanhuTree (sketchJson : SketchJson) : LanhuTree :=
  match sketchJson.artboard with
  | none => emptyTree
  | some .nonObj => emptyTree
  | some (.node id f layers) =>
    match validId id with
    | none => emptyTree
    | some rootId =>
      let st0 : TState :=
        { nodesById := [(rootId, .node id f layers)]
          childrenById := []
          parentById := [(rootId, none)] }
      let stack0 : List (String × List LItem) :=
        if layers.isEmpty then [] else [(rootId, layers)]
      let stF := runStack st0 stack0
      ⟨stF.nodesById, stF.childrenById, stF.parentById, [rootId]⟩

/-- One step of the while-loop of getAncestorIds: tree.parentById[currentId]
with the truthiness test (!parentId) that stops on an unknown id, a null
parent, or an empty-string parent. -/
def lookupParent (t : LanhuTree) (id : String) : Option String :=
  match objGet t.parentById id with
  | some (some p) => if p = "" then none else some p
  | _ => none

/-- Iterated parent steps (k applications of lookupParent). -/
def iterParent (t : LanhuTree) (id : String) : Nat → Option String
  | 0 => some id
  | n + 1 => (iterParent t id n).bind (fun s => lookupParent t s)

/-- The forest invariant: no id is its own proper ancestor under the parent
relation. -/
def TreeAcyclic (t : LanhuTree) : Prop :=
  ∀ id k, 0 < k → iterParent t id k ≠ some id

/-- The while-loop of getAncestorIds with explicit fuel: each iteration takes
one parent step and appends it to the result. -/
def getAncestorIdsAux (t : LanhuTree) : String → Nat → List String
  | _, 0 => []
  | cur, fuel + 1 =>
    match lookupParent t cur with
    | none => []
    | some p => p :: getAncestorIdsAux t p fuel

/-- getAncestorIds from src/lib/lanhu.ts. The source loop is unbounded; it is
embedded with fuel parentById.length + 2, an amount at which the result has
provably stabilised for every acyclic tree (theorem for claim C6). -/
def getAncestorIds (t : LanhuTree) (id : String) : List String :=
  getAncestorIdsAux t id (t.parentById.length + 2)

/-- An entry of the geometry index: id, resolved rectangle, and area. -/
structure RectItem where
  id : String
  rect : RectQ
  area : ℚ
deriving DecidableEq

/-- The point-in-rectangle test of pickCandidatesAtPoint (inclusive bounds). -/
def rectContainsPt (r : RectQ) (x y : ℚ) : Bool :=
  decide (r.left ≤ x) && decide (x ≤ r.left + r.width) &&
  decide (r.top ≤ y) && decide (y ≤ r.top + r.height)

/-- rectIndexAll from src/entrypoints/popup/App.tsx: walk the entries of
nodesById in enumeration order, keep nodes whose rectangle resolves with
strictly positive area (the Number.isFinite(area) test of the source cannot
fail in this model, where a product of finite numbers is finite), then sort
ascending by area with the stable JS sort. -/
def rectIndexAll (t : LanhuTree) : List RectItem :=
  let items := t.nodesById.filterMap (fun p =>
    match getNodeRectItem p.2 with
    | none => none
    | some rect =>
        let area := rect.width * rect.height
        if area ≤ 0 then none else some ⟨p.1, rect, area⟩)
  items.mergeSort (fun a b => decide (a.area ≤ b.area))

/-- pickCandidatesAtPoint from the wireframe view: the for-loop pushing every
index entry whose rectangle contains the point. -/
def pickCandidatesAtPoint (rectIndex : List RectItem) (x y : ℚ) : List String :=
  rectIndex.foldl
    (fun candidates item =>
      if rectContainsPt item.rect x y then candidates ++ [item.id] else candidates)
    []

/-- The candidate-set signature of onClickSvg: candidateIds.join('|'). -/
def candidateSig (candidateIds : List String) : String :=
  String.intercalate "|" candidateIds

/-- The selection logic of onClickSvg (src/entrypoints/popup/App.tsx): given
the candidate list at the clicked point, the stored signature of the previous
pick, and the currently selected id, return the id passed to onSelect (none
when there is no candidate: the handler returns without selecting). -/
def nextSelection (candidateIds : List String) (lastSig : Option String)
    (selectedId : Option String) : Option String :=
  match candidateIds with
  | [] => none
  | c0 :: _ =>
    let sig := candidateSig candidateIds
    let nextId :=
      match selectedId with
      | some sel =>
          if lastSig = some sig ∧ sel ≠ "" then
            match candidateIds.findIdx? (fun c => c == sel) with
            | some idx =>
                if idx < candidateIds.length - 1 then candidateIds.getD (idx + 1) c0
                else candidateIds.getD idx c0
            | none => c0
          else c0
      | none => c0
    some nextId

/-- isRectInside from src/entrypoints/popup/App.tsx: containment of bounding
boxes with tolerance eps = 0.01 on all four comparisons. -/
def isRectInside (inner outer : RectQ) : Bool :=
  let eps : ℚ := 1 / 100
  decide (inner.left ≥ outer.left - eps) &&
  decide (inner.top ≥ outer.top - eps) &&
  decide (inner.left + inner.width ≤ outer.left + outer.width + eps) &&
  decide (inner.top + inner.height ≤ outer.top + outer.height + eps)

/-- JS Set.add: append when the element is not yet present. -/
def setAdd (l : List String) (x : String) : List String :=
  if x ∈ l then l else l ++ [x]

/-- The included set of exportVisuallyContained: every geometry-index id whose
rectangle is inside the container rectangle, then the container id itself. -/
def containedSet (rectIdx : List RectItem) (containerRect : RectQ)
    (selectedId : String) : List String :=
  setAdd
    (rectIdx.foldl
      (fun acc item => if isRectInside item.rect containerRect then setAdd acc item.id else acc)
      [])
    selectedId

/-- The children list of an id (childrenById[id] ?? []). -/
def childrenOf (t : LanhuTree) (id : String) : List String :=
  (objGet t.childrenById id).getD []

/-- The depth-first document-order walk of getTreePreorderIds with explicit
fuel: visit the head of the stack, emit it when included, and prepend its
children. This is the recursive reading of the explicit (id, next-child-index)
frame machine of the source, which visits exactly the same ids in the same
order. -/
def preorderAux (t : LanhuTree) (included : List String) :
    Nat → List String → List String
  | 0, _ => []
  | _, [] => []
  | fuel + 1, id :: rest =>
      let emitted := if id ∈ included then [id] else []
      emitted ++ preorderAux t included fuel (childrenOf t id ++ rest)

/-- Fuel sufficient for every tree built by parseLanhuTree, where each id
occurs at most once among the children lists: one unit per root plus one per
child occurrence. -/
def preorderFuel (t : LanhuTree) : Nat :=
  t.rootIds.length + (t.childrenById.map (fun p => p.2.length)).sum + 1

/-- getTreePreorderIds from src/entrypoints/popup/App.tsx: preorder over the
roots restricted to the included set. -/
def getTreePreorderIds (t : LanhuTree) (included : List String) : List String :=
  preorderAux t included (preorderFuel t) t.rootIds

/-- exportVisuallyContained from src/entrypoints/popup/App.tsx, reduced to its
data content: none models the early returns that perform no operation and
produce no export output (unresolvable container rectangle; the guard clauses
of the source). Its some case carries the exported id list. The app only ever
calls it with a selectedId that is a key of nodesById. -/
def exportVisuallyContained (t : LanhuTree) (rectIdx : List RectItem)
    (selectedId : String) : Option (List String) :=
  match objGet t.nodesById selectedId with
  | none => none
  | some nd =>
    match getNodeRectItem nd with
    | none => none
    | some containerRect =>
        some (getTreePreorderIds t (containedSet rectIdx containerRect selectedId))

/-- Rendering of a Partial<LanhuRect> back to a JSON value for export. -/
def partRectToJVal (fr : PartRect) : JVal :=
  .obj
    ((match fr.left with | some (.fin q) => [("left", JVal.num q)]
                         | some .nonfinite => [("left", JVal.nnum)]
                         | none => []) ++
     (match fr.top with | some (.fin q) => [("top", JVal.num q)]
                        | some .nonfinite => [("top", JVal.nnum)]
                        | none => []) ++
     (match fr.width with | some (.fin q) => [("width", JVal.num q)]
                          | some .nonfinite => [("width", JVal.nnum)]
                          | none => []) ++
     (match fr.height with | some (.fin q) => [("height", JVal.num q)]
                           | some .nonfinite => [("height", JVal.nnum)]
                           | none => []))

/-- The fixed key list of the export projection, in source order. -/
def exportKeys : List String :=
  ["id", "name", "type", "frame", "realFrame", "combinedFrame", "transform",
   "opacity", "visible", "rotation", "clipped", "isMask", "origin", "radius",
   "style", "paths", "text", "image", "sharedStyle"]

/-- pickExportNode from src/lib/lanhu.ts: the literal record. Every field but
id is written with ?? null; id is projected as-is, so a node without an id
exports id: undefined. -/
def pickExportNode (id : Option String) (f : NodeFields) : List (String × JVal) :=
  [("id", match id with | some s => JVal.str s | none => JVal.undef),
   ("name", match f.name with | some s => JVal.str s | none => JVal.null),
   ("type", match f.type with | some (some s) => JVal.str s | _ => JVal.null),
   ("frame", match f.frame with | some fr => partRectToJVal fr | none => JVal.null),
   ("realFrame", match f.realFrame with | some fr => partRectToJVal fr | none => JVal.null),
   ("combinedFrame", match f.combinedFrame with | some fr => partRectToJVal fr | none => JVal.null),
   ("transform", f.transform.getD JVal.null),
   ("opacity", f.opacity.getD JVal.null),
   ("visible", f.visible.getD JVal.null),
   ("rotation", f.rotation.getD JVal.null),
   ("clipped", f.clipped.getD JVal.null),
   ("isMask", f.isMask.getD JVal.null),
   ("origin", f.origin.getD JVal.null),
   ("radius", f.radius.getD JVal.null),
   ("style", f.style.getD JVal.null),
   ("paths", f.paths.getD JVal.null),
   ("text", f.text.getD JVal.null),
   ("image", f.image.getD JVal.null),
   ("sharedStyle", f.sharedStyle.getD JVal.null)]

mutual
/-- compactJson from src/lib/lanhu.ts: none models the JS undefined result.
Null and undefined are dropped; arrays and objects are compacted recursively
and dropped when they end up empty; every other value passes through. -/
def compactJson : JVal → Option JVal
  | .null => none
  | .undef => none
  | .bool b => some (.bool b)
  | .num q => some (.num q)
  | .nnum => some .nnum
  | .str s => some (.str s)
  | .arr xs =>
      let next := compactArr xs
      if next.isEmpty then none else some (.arr next)
  | .obj kvs =>
      let next := compactObj kvs
      if next.isEmpty then none else some (.obj next)
/-- The array branch of compactJson: map compactJson, keep defined results. -/
def compactArr : List JVal → List JVal
  | [] => []
  | v :: vs =>
      match compactJson v with
      | none => compactArr vs
      | some c => c :: compactArr vs
/-- The object branch of compactJson: keep keys whose value compacts to a
defined result. -/
def compactObj : List (String × JVal) → List (String × JVal)
  | [] => []
  | (k, v) :: kvs =>
      match compactJson v with
      | none => compactObj kvs
      | some c => (k, c) :: compactObj kvs
end

/-- A queued entry that the traversal skips: not an object, or a falsy id. -/
def invalidItem : LItem → Prop
  | .nonObj => True
  | .node id _ _ => validId id = none

/-- The parts of a tree the traversal registers. The stored node values of
nodesById embed the original subtrees (the source stores the raw node
objects), so dropping a queued entry changes the parent's stored value but
not the keys or any other mapping. -/
structure TreeShape where
  nodeKeys : List String
  childrenById : List (String × List String)
  parentById : List (String × Option String)
  rootIds : List String

/-- The shape of a built tree. -/
def shapeOf (t : LanhuTree) : TreeShape :=
  ⟨keysOf t.nodesById, t.childrenById, t.parentById, t.rootIds⟩

/-- States agreeing on everything except the stored node values. -/
def stShapeEq (s1 s2 : TState) : Prop :=
  keysOf s1.nodesById = keysOf s2.nodesById ∧
  s1.childrenById = s2.childrenById ∧ s1.parentById = s2.parentById

/-- A node carrying both frame = (0, 0, 10, 10) and realFrame = (5, 5, 20, 20),
the concrete input of the spec's priority example. -/
def prFrameW : PartRect :=
  ⟨some (.fin 0), some (.fin 0), some (.fin 10), some (.fin 10)⟩

/-- The lower-priority realFrame of the priority example. -/
def prRealW : PartRect :=
  ⟨some (.fin 5), some (.fin 5), some (.fin 20), some (.fin 20)⟩

/-- The node of the priority example. -/
def fieldsW : NodeFields :=
  { emptyFields with frame := some prFrameW, realFrame := some prRealW }

/-- The unsorted geometry items, before the area sort. -/
def rectItemsOf (t : LanhuTree) : List RectItem :=
  t.nodesById.filterMap (fun p =>
    match getNodeRectItem p.2 with
    | none => none
    | some rect =>
        let area := rect.width * rect.height
        if area ≤ 0 then none else some ⟨p.1, rect, area⟩)

/-- The one-node tree used as the C7 witness. -/
def treeW7 : LanhuTree :=
  ⟨[("A", .node (some "A") fieldsW [])], [], [("A", none)], ["A"]⟩

/-- The geometry index of the C7 witness tree. -/
def rectIdxW7 : List RectItem := [⟨"A", ⟨0, 0, 10, 10⟩, 100⟩]

/-- The two-node acyclic tree used as the C6 witness, with parent mapping
B to A and A to the root sentinel. -/
def treeW6 : LanhuTree := ⟨[], [], [("B", some "A"), ("A", none)], []⟩

mutual
/-- The ids of the valid nodes a document traversal registers, in top-down
document order, cut below invalid nodes (their subtrees are dropped). -/
def collectIds : LItem → List String
  | .nonObj => []
  | .node id _ layers =>
    match validId id with
    | none => []
    | some i => i :: collectList layers
/-- collectIds over a layers list. -/
def collectList : List LItem → List String
  | [] => []
  | n :: ns => collectIds n ++ collectList ns
end

/-- The registrable ids of a document. -/
def docIds (s : SketchJson) : List String :=
  match s.artboard with
  | some it => collectIds it
  | none => []

/-- Referential integrity of a tree index: every id appearing in a children
list and every key of parentById is also a key of nodesById. -/
def RefIntegrity (t : LanhuTree) : Prop :=
  (∀ p ∈ t.childrenById, ∀ c ∈ p.2, c ∈ keysOf t.nodesById) ∧
  (∀ q ∈ t.parentById, q.1 ∈ keysOf t.nodesById)

/-- The id under which the traversal would register an item, when valid. -/
def topId : LItem → Option String
  | .nonObj => none
  | .node id _ _ => validId id

mutual
/-- A rank function is compatible with an item when every registered child id
inside it ranks strictly above its registered parent id. -/
def DescOK (rank : String → Nat) : LItem → Prop
  | .nonObj => True
  | .node id _ layers =>
    match validId id with
    | none => True
    | some i =>
        (∀ j ∈ layers.filterMap topId, rank i < rank j) ∧ DescListOK rank layers
/-- DescOK over a layers list. -/
def DescListOK (rank : String → Nat) : List LItem → Prop
  | [] => True
  | n :: ns => DescOK rank n ∧ DescListOK rank ns
end

/-- A work-stack frame compatible with a rank function. -/
def frameOK (rank : String → Nat) (fr : String × List LItem) : Prop :=
  (∀ j ∈ fr.2.filterMap topId, rank fr.1 < rank j) ∧ DescListOK rank fr.2

/-- Every parent edge of the state decreases the rank. -/
def rankLt (rank : String → Nat) (st : TState) : Prop :=
  ∀ q ∈ st.parentById, ∀ p, q.2 = some p → rank p < rank q.1

mutual
/-- The depth of every registrable id of an item rooted at depth d. -/
def depthMap : LItem → Nat → List (String × Nat)
  | .nonObj, _ => []
  | .node id _ layers, d =>
    match validId id with
    | none => []
    | some i => (i, d) :: depthMapList layers (d + 1)
/-- depthMap over a layers list. -/
def depthMapList : List LItem → Nat → List (String × Nat)
  | [], _ => []
  | n :: ns, d => depthMap n d ++ depthMapList ns d
end

/-- The rank read off a depth assignment (0 for unknown ids). -/
def rankOf (g : List (String × Nat)) (x : String) : Nat := (objGet g x).getD 0

/-- Referential integrity of an intermediate traversal state. -/
def stRefOK (st : TState) : Prop :=
  (∀ p ∈ st.childrenById, ∀ c ∈ p.2, c ∈ keysOf st.nodesById) ∧
  (∀ q ∈ st.parentById, q.1 ∈ keysOf st.nodesById)

/-- The duplicate-id document A with child B whose own child reuses id A,
used to refute unconditional acyclicity. -/
def docC1 : SketchJson :=
  ⟨some (.node (some "A") emptyFields
      [.node (some "B") emptyFields [.node (some "A") emptyFields []]])⟩

/-- The duplicate-free two-node document used as the C1 witness. -/
def docW1 : SketchJson :=
  ⟨some (.node (some "A") emptyFields [.node (some "B") emptyFields []])⟩

/-! Theorems. -/

theorem stackMeasure_append (a b : List (String × List LItem)) :
    stackMeasure (a ++ b) = stackMeasure a + stackMeasure b := by
  induction a with
  | nil => simp [stackMeasure]
  | cons f rest ih => simp [stackMeasure, ih]; omega

theorem stackMeasure_reverse (a : List (String × List LItem)) :
    stackMeasure a.reverse = stackMeasure a := by
  induction a with
  | nil => rfl
  | cons f rest ih =>
      simp [List.reverse_cons, stackMeasure_append, stackMeasure, ih]; omega

theorem processNode_measure (st : TState) (pid : String) (n : LItem) :
    stackMeasure (processNode st pid n).2 ≤ itemSize n := by
  cases n with
  | nonObj => simp [processNode, stackMeasure, itemSize]
  | node id f layers =>
      cases h : validId id with
      | none => simp [processNode, h, stackMeasure]
      | some i =>
          cases layers with
          | nil => simp [processNode, h, stackMeasure, List.isEmpty]
          | cons a l =>
              simp only [processNode, h, List.isEmpty, if_false, Bool.false_eq_true,
                ite_false, stackMeasure, itemSize]
              omega

theorem processFrame_measure (pid : String) :
    ∀ (ns : List LItem) (st : TState),
      stackMeasure (processFrame st pid ns).2 ≤ listSize ns := by
  intro ns
  induction ns with
  | nil => intro st; simp [processFrame, stackMeasure, listSize]
  | cons n rest ih =>
      intro st
      have h1 := processNode_measure st pid n
      have h2 := ih (processNode st pid n).1
      simp only [processFrame, listSize, stackMeasure_append]
      omega

theorem processNode_invalid (st : TState) (pid : String) (n : LItem)
    (h : invalidItem n) : processNode st pid n = (st, []) := by
  cases n with
  | nonObj => rfl
  | node id f layers =>
      simp only [invalidItem] at h
      simp [processNode, h]

theorem processFrame_cons_invalid (st : TState) (pid : String) (bad : LItem)
    (hbad : invalidItem bad) (ns : List LItem) :
    processFrame st pid (bad :: ns) = processFrame st pid ns := by
  simp [processFrame, processNode_invalid st pid bad hbad]

theorem processFrame_skip (bad : LItem) (hbad : invalidItem bad) (pid : String) :
    ∀ (l1 l2 : List LItem) (st : TState),
      processFrame st pid (l1 ++ bad :: l2) = processFrame st pid (l1 ++ l2) := by
  intro l1
  induction l1 with
  | nil =>
      intro l2 st
      simpa using processFrame_cons_invalid st pid bad hbad l2
  | cons n rest ih =>
      intro l2 st
      simp only [List.cons_append, processFrame]
      simp only [List.append_eq]
      rw [ih]

theorem runStack_cons (st : TState) (pid : String) (nodes : List LItem)
    (stack : List (String × List LItem)) :
    runStack st ((pid, nodes) :: stack) =
      runStack (processFrame st pid nodes).1
        ((processFrame st pid nodes).2.reverse ++ stack) := by
  rw [runStack]

theorem runStack_skip (bad : LItem) (hbad : invalidItem bad) (st : TState)
    (pid : String) (ns : List LItem) (stack : List (String × List LItem)) :
    runStack st ((pid, bad :: ns) :: stack) = runStack st ((pid, ns) :: stack) := by
  rw [runStack_cons, runStack_cons, processFrame_cons_invalid st pid bad hbad]

theorem stackMeasure_step (st : TState) (pid : String) (nodes : List LItem)
    (rest : List (String × List LItem)) :
    stackMeasure ((processFrame st pid nodes).2.reverse ++ rest) <
      stackMeasure ((pid, nodes) :: rest) := by
  simp only [stackMeasure_append, stackMeasure_reverse, stackMeasure]
  have := processFrame_measure pid nodes st
  omega

theorem any_key (m : List (String × α)) (k : String) :
    m.any (fun p => p.1 == k) = (keysOf m).any (fun s => s == k) := by
  induction m with
  | nil => rfl
  | cons p rest ih =>
      simp only [keysOf] at ih ⊢
      simp only [List.any_cons, List.map_cons]
      rw [ih]

theorem keysOf_objSet (m : List (String × α)) (k : String) (v : α) :
    keysOf (objSet m k v) =
      if (keysOf m).any (fun s => s == k) then keysOf m else keysOf m ++ [k] := by
  unfold objSet
  rw [any_key]
  by_cases h : (keysOf m).any (fun s => s == k)
  · rw [if_pos h, if_pos h]
    unfold keysOf
    rw [List.map_map]
    apply List.map_congr_left
    intro p _
    by_cases hp : p.1 = k
    · simp [hp]
    · simp [Function.comp, hp]
  · rw [if_neg h, if_neg h]
    simp [keysOf]

theorem processNode_shape (s1 s2 : TState) (h : stShapeEq s1 s2) (pid : String)
    (n : LItem) :
    stShapeEq (processNode s1 pid n).1 (processNode s2 pid n).1 ∧
    (processNode s1 pid n).2 = (processNode s2 pid n).2 := by
  obtain ⟨hn, hc, hp⟩ := h
  cases n with
  | nonObj => exact ⟨⟨hn, hc, hp⟩, rfl⟩
  | node id f layers =>
      cases hv : validId id with
      | none => simp [processNode, hv]; exact ⟨hn, hc, hp⟩
      | some i =>
          have hkeys : keysOf (objSet s1.nodesById i (.node id f layers)) =
              keysOf (objSet s2.nodesById i (.node id f layers)) := by
            rw [keysOf_objSet, keysOf_objSet, hn]
          cases hl : layers.isEmpty <;>
            simp [processNode, hv, hl, stShapeEq, hkeys, hc, hp, objPush, objGet]

theorem processFrame_shape (pid : String) :
    ∀ (ns : List LItem) (s1 s2 : TState), stShapeEq s1 s2 →
      stShapeEq (processFrame s1 pid ns).1 (processFrame s2 pid ns).1 ∧
      (processFrame s1 pid ns).2 = (processFrame s2 pid ns).2 := by
  intro ns
  induction ns with
  | nil => intro s1 s2 h; exact ⟨h, rfl⟩
  | cons n rest ih =>
      intro s1 s2 h
      have hn := processNode_shape s1 s2 h pid n
      have hr := ih (processNode s1 pid n).1 (processNode s2 pid n).1 hn.1
      simp only [processFrame]
      exact ⟨hr.1, by rw [hn.2, hr.2]⟩

theorem runStack_shape_aux :
    ∀ (n : Nat) (stack : List (String × List LItem)), stackMeasure stack ≤ n →
      ∀ (s1 s2 : TState), stShapeEq s1 s2 →
        stShapeEq (runStack s1 stack) (runStack s2 stack) := by
  intro n
  induction n with
  | zero =>
      intro stack hm s1 s2 h
      cases stack with
      | nil => simpa [runStack] using h
      | cons f rest => simp [stackMeasure] at hm
  | succ n ih =>
      intro stack hm s1 s2 h
      cases stack with
      | nil => simpa [runStack] using h
      | cons f rest =>
          obtain ⟨pid, nodes⟩ := f
          rw [runStack_cons, runStack_cons]
          have hpf := processFrame_shape pid nodes s1 s2 h
          rw [hpf.2]
          apply ih
          · have hlt := stackMeasure_step s2 pid nodes rest
            have hpe : (processFrame s1 pid nodes).2 = (processFrame s2 pid nodes).2 :=
              hpf.2
            omega
          · exact hpf.1

theorem runStack_shape (stack : List (String × List LItem)) (s1 s2 : TState)
    (h : stShapeEq s1 s2) : stShapeEq (runStack s1 stack) (runStack s2 stack) :=
  runStack_shape_aux (stackMeasure stack) stack le_rfl s1 s2 h

/-- C5: a queued node that is not an object or lacks an id is skipped before
its children could be queued: the traversal behaves exactly as if the entry
were absent from its sibling list, so nothing of its subtree is ever visited
or registered while the valid siblings are still processed; at the document
level, removing such an entry from the artboard's layer list leaves the
registered tree shape unchanged. -/
theorem skip_drops_subtree (bad : LItem) (hbad : invalidItem bad) :
    (∀ (st : TState) (pid : String) (ns : List LItem)
        (stack : List (String × List LItem)),
      runStack st ((pid, bad :: ns) :: stack) = runStack st ((pid, ns) :: stack)) ∧
    (∀ (rid : String) (fa : NodeFields) (pre post : List LItem),
      shapeOf (parseLanhuTree ⟨some (.node (some rid) fa (pre ++ bad :: post))⟩) =
        shapeOf (parseLanhuTree ⟨some (.node (some rid) fa (pre ++ post))⟩)) := by
  refine ⟨fun st pid ns stack => runStack_skip bad hbad st pid ns stack, ?_⟩
  intro rid fa pre post
  by_cases hr : rid = ""
  · subst hr; simp [parseLanhuTree, validId]
  · have hv : validId (some rid) = some rid := by simp [validId, hr]
    have hne : (pre ++ bad :: post).isEmpty = false := by cases pre <;> simp
    simp only [parseLanhuTree, hv, hne, Bool.false_eq_true, ite_false]
    cases hpp : (pre ++ post).isEmpty with
    | true =>
        have hnil : pre ++ post = [] := List.isEmpty_iff.mp hpp
        have hpre : pre = [] := List.append_eq_nil.mp hnil |>.1
        have hpost : post = [] := List.append_eq_nil.mp hnil |>.2
        subst hpre; subst hpost
        simp only [List.nil_append, ite_true]
        rw [runStack_skip bad hbad]
        rw [runStack_cons]
        simp [runStack, processFrame, shapeOf, keysOf]
    | false =>
        simp only [Bool.false_eq_true, ite_false]
        rw [runStack_cons, processFrame_skip bad hbad rid pre post, ← runStack_cons]
        have hsh := runStack_shape [(rid, pre ++ post)]
          ⟨[(rid, .node (some rid) fa (pre ++ bad :: post))], [], [(rid, none)]⟩
          ⟨[(rid, .node (some rid) fa (pre ++ post))], [], [(rid, none)]⟩
          (by exact ⟨rfl, rfl, rfl⟩)
        obtain ⟨h1, h2, h3⟩ := hsh
        simp only [shapeOf]
        rw [h1, h2, h3]

/-- Witness for C5: a non-object entry queued among the children of p is
skipped, leaving the run unchanged. -/
theorem skip_drops_subtree_witness :
    runStack ⟨[], [], []⟩ [("p", [LItem.nonObj])] = runStack ⟨[], [], []⟩ [("p", [])] :=
  (skip_drops_subtree .nonObj trivial).1 ⟨[], [], []⟩ "p" [] []

/-- C10: tree construction treats an empty-string id exactly like a missing
id (both checks are truthiness tests): a document whose artboard id is the
empty string builds the all-empty index just like one with no id at all, and
a traversed layer node with an empty-string id is dropped together with its
whole subtree, exactly like a node with no id. -/
theorem emptyId_like_missing :
    (∀ (f : NodeFields) (layers : List LItem),
      parseLanhuTree ⟨some (.node (some "") f layers)⟩ = emptyTree ∧
      parseLanhuTree ⟨some (.node none f layers)⟩ = emptyTree) ∧
    (∀ (st : TState) (pid : String) (f : NodeFields) (ls ns : List LItem)
        (stack : List (String × List LItem)),
      runStack st ((pid, (.node (some "") f ls) :: ns) :: stack) =
        runStack st ((pid, (.node none f ls) :: ns) :: stack) ∧
      runStack st ((pid, (.node (some "") f ls) :: ns) :: stack) =
        runStack st ((pid, ns) :: stack)) := by
  constructor
  · intro f layers
    constructor <;> simp [parseLanhuTree, validId]
  · intro st pid f ls ns stack
    have h1 : invalidItem (.node (some "") f ls) := by simp [invalidItem, validId]
    have h2 : invalidItem (.node none f ls) := by simp [invalidItem, validId]
    exact ⟨by rw [runStack_skip _ h1, runStack_skip _ h2],
           runStack_skip _ h1 st pid ns stack⟩

/-- C3: rectangle resolution checks frame, then realFrame, then combinedFrame
in that fixed priority order and uses the first one present; the chosen
candidate is accepted only if all four fields are present finite numbers
(resolvePartRect), and otherwise resolution returns none even when a
later-priority source would have succeeded: the result is fully determined by
the first present source, with no fallback and no mixing of fields. -/
theorem getNodeRect_priority (f : NodeFields) (pr : PartRect) :
    (f.frame = some pr → getNodeRect f = resolvePartRect pr) ∧
    (f.frame = none → f.realFrame = some pr → getNodeRect f = resolvePartRect pr) ∧
    (f.frame = none → f.realFrame = none → f.combinedFrame = some pr →
      getNodeRect f = resolvePartRect pr) ∧
    (f.frame = none → f.realFrame = none → f.combinedFrame = none →
      getNodeRect f = none) := by
  refine ⟨fun h1 => ?_, fun h1 h2 => ?_, fun h1 h2 h3 => ?_, fun h1 h2 h3 => ?_⟩
  · simp [getNodeRect, resolvePartRect, h1]
  · simp [getNodeRect, resolvePartRect, h1, h2]
  · simp [getNodeRect, resolvePartRect, h1, h2, h3]
  · simp [getNodeRect, h1, h2, h3]

/-- Witness for C3: with both frame and realFrame present, resolution returns
the frame rectangle (0, 0, 10, 10), not the realFrame one. -/
theorem getNodeRect_priority_witness :
    getNodeRect fieldsW = resolvePartRect prFrameW ∧
    resolvePartRect prFrameW = some ⟨0, 0, 10, 10⟩ :=
  ⟨(getNodeRect_priority fieldsW prFrameW).1 rfl, rfl⟩

theorem compactArr_eq_filterMap (xs : List JVal) :
    compactArr xs = xs.filterMap compactJson := by
  induction xs with
  | nil => rfl
  | cons v vs ih =>
      cases h : compactJson v <;> simp [compactArr, h, ih, List.filterMap_cons]

theorem compactObj_eq_filterMap (kvs : List (String × JVal)) :
    compactObj kvs =
      kvs.filterMap (fun p => (compactJson p.2).map (fun c => (p.1, c))) := by
  induction kvs with
  | nil => rfl
  | cons kv kvs ih =>
      obtain ⟨k, v⟩ := kv
      cases h : compactJson v <;> simp [compactObj, h, ih, List.filterMap_cons]

/-- C9: compact recursively strips null and undefined leaves and empty
containers bottom-up: an array keeps only its non-undefined compacted children
and becomes undefined when empty, an object keeps only keys whose compacted
value is defined and becomes undefined when no key survives, scalars pass
through unchanged; and in particular the spec's example
compact({a: null, b: {c: undefined}, d: [1, null, 2]}) yields {d: [1, 2]}. -/
theorem compactJson_spec :
    (∀ xs : List JVal,
      compactJson (.arr xs) =
        (if (xs.filterMap compactJson).isEmpty then none
         else some (.arr (xs.filterMap compactJson)))) ∧
    (∀ kvs : List (String × JVal),
      compactJson (.obj kvs) =
        (if (kvs.filterMap (fun p => (compactJson p.2).map (fun c => (p.1, c)))).isEmpty
         then none
         else some (.obj (kvs.filterMap (fun p => (compactJson p.2).map (fun c => (p.1, c))))))) ∧
    compactJson .null = none ∧
    compactJson .undef = none ∧
    (∀ b, compactJson (.bool b) = some (.bool b)) ∧
    (∀ q, compactJson (.num q) = some (.num q)) ∧
    compactJson .nnum = some .nnum ∧
    (∀ s, compactJson (.str s) = some (.str s)) ∧
    compactJson
        (.obj [("a", .null), ("b", .obj [("c", .undef)]),
               ("d", .arr [.num 1, .null, .num 2])])
      = some (.obj [("d", .arr [.num 1, .num 2])]) := by
  refine ⟨fun xs => ?_, fun kvs => ?_, rfl, rfl, fun b => rfl, fun q => rfl, rfl,
    fun s => rfl, rfl⟩
  · rw [compactJson, compactArr_eq_filterMap]
  · rw [compactJson, compactObj_eq_filterMap]

/-- C4: repeated-click disambiguation. With an unchanged signature and the
selected id found at index i in the candidate list, i not last, the next
selection is the candidate at index i + 1; when the selected id is absent from
the candidate list, or the stored signature differs from the current one, the
next selection is the candidate at index 0 (the head, i.e. the smallest
match). -/
theorem nextSelection_spec (cands : List String) (lastSig : Option String)
    (sel : Option String) (s : String) (i : Nat) :
    (sel = some s → s ≠ "" → lastSig = some (candidateSig cands) →
      cands.findIdx? (fun c => c == s) = some i → i + 1 < cands.length →
      nextSelection cands lastSig sel = cands[i + 1]?) ∧
    (sel = some s → s ∉ cands → nextSelection cands lastSig sel = cands.head?) ∧
    (lastSig ≠ some (candidateSig cands) → nextSelection cands lastSig sel = cands.head?) := by
  refine ⟨fun hsel hne hsig hidx hlt => ?_, fun hsel habs => ?_, fun hsig => ?_⟩
  · cases cands with
    | nil => simp at hidx
    | cons c0 rest =>
        subst hsel
        simp only [nextSelection, hsig, hne, and_true, if_pos rfl, hidx, ne_eq,
          not_false_eq_true]
        have hlt2 : i < (c0 :: rest).length - 1 := by
          simp only [List.length_cons] at hlt ⊢; omega
        rw [if_pos hlt2, List.getD_eq_getElem?_getD,
          List.getElem?_eq_getElem hlt, Option.getD_some]
        simp
  · cases cands with
    | nil => rfl
    | cons c0 rest =>
        subst hsel
        have hidx : (c0 :: rest).findIdx? (fun c => c == s) = none := by
          rw [List.findIdx?_eq_none_iff]
          intro x hx
          simp only [beq_eq_false_iff_ne, ne_eq]
          exact fun hxs => habs (hxs ▸ hx)
        by_cases hs : lastSig = some (candidateSig (c0 :: rest)) ∧ s ≠ "" <;>
          simp [nextSelection, hidx, hs]
  · cases cands with
    | nil => rfl
    | cons c0 rest =>
        cases sel with
        | none => rfl
        | some s2 =>
            have : ¬(lastSig = some (candidateSig (c0 :: rest)) ∧ s2 ≠ "") := by
              intro h; exact hsig h.1
            simp [nextSelection, this]

/-- Witness for C4: at the point whose candidates are [a, b] (smallest first),
with unchanged signature a|b and a currently selected, the next selection
advances to b. -/
theorem nextSelection_spec_witness :
    nextSelection ["a", "b"] (some "a|b") (some "a") = ["a", "b"][0 + 1]? :=
  (nextSelection_spec ["a", "b"] (some "a|b") (some "a") "a" 0).1 rfl
    (by decide) rfl rfl (by decide)

/-- Counterexample for C8: the id field is projected without the ?? null
default, so a node lacking an id exports id as undefined, not as an explicit
null (and JSON serialisation would then omit the key, breaking the fixed
shape). -/
theorem pickExportNode_id_cex :
    objGet (pickExportNode none emptyFields) "id" = some JVal.undef ∧
    JVal.undef ≠ JVal.null :=
  ⟨rfl, fun h => JVal.noConfusion h⟩

/-- C8 (amended): the export projection produces a record with exactly the
allowlisted keys in a fixed order for every node; every allowlisted field
except id defaults to an explicit null when absent; id alone is projected
as-is, giving the string when present and undefined when the node lacks an
id. -/
theorem pickExportNode_shape (id : Option String) (f : NodeFields) :
    ((pickExportNode id f).map (fun p => p.1) = exportKeys) ∧
    (∀ s, id = some s → objGet (pickExportNode id f) "id" = some (JVal.str s)) ∧
    (id = none → objGet (pickExportNode id f) "id" = some JVal.undef) ∧
    (f.name = none → objGet (pickExportNode id f) "name" = some JVal.null) ∧
    (f.type = none → objGet (pickExportNode id f) "type" = some JVal.null) ∧
    (f.frame = none → objGet (pickExportNode id f) "frame" = some JVal.null) ∧
    (f.realFrame = none → objGet (pickExportNode id f) "realFrame" = some JVal.null) ∧
    (f.combinedFrame = none →
      objGet (pickExportNode id f) "combinedFrame" = some JVal.null) ∧
    (f.transform = none → objGet (pickExportNode id f) "transform" = some JVal.null) ∧
    (f.opacity = none → objGet (pickExportNode id f) "opacity" = some JVal.null) ∧
    (f.visible = none → objGet (pickExportNode id f) "visible" = some JVal.null) ∧
    (f.rotation = none → objGet (pickExportNode id f) "rotation" = some JVal.null) ∧
    (f.clipped = none → objGet (pickExportNode id f) "clipped" = some JVal.null) ∧
    (f.isMask = none → objGet (pickExportNode id f) "isMask" = some JVal.null) ∧
    (f.origin = none → objGet (pickExportNode id f) "origin" = some JVal.null) ∧
    (f.radius = none → objGet (pickExportNode id f) "radius" = some JVal.null) ∧
    (f.style = none → objGet (pickExportNode id f) "style" = some JVal.null) ∧
    (f.paths = none → objGet (pickExportNode id f) "paths" = some JVal.null) ∧
    (f.text = none → objGet (pickExportNode id f) "text" = some JVal.null) ∧
    (f.image = none → objGet (pickExportNode id f) "image" = some JVal.null) ∧
    (f.sharedStyle = none →
      objGet (pickExportNode id f) "sharedStyle" = some JVal.null) := by
  refine ⟨rfl, fun s hs => ?_, fun hs => ?_, fun h => ?_, fun h => ?_, fun h => ?_,
    fun h => ?_, fun h => ?_, fun h => ?_, fun h => ?_, fun h => ?_, fun h => ?_,
    fun h => ?_, fun h => ?_, fun h => ?_, fun h => ?_, fun h => ?_, fun h => ?_,
    fun h => ?_, fun h => ?_, fun h => ?_⟩ <;>
    first
      | (subst hs; rfl)
      | (simp only [pickExportNode, objGet, h]; rfl)

/-- Witness for C8: a node with an id and no name exports that id as a string
and name as an explicit null. -/
theorem pickExportNode_shape_witness :
    objGet (pickExportNode (some "x") emptyFields) "id" = some (JVal.str "x") ∧
    objGet (pickExportNode (some "x") emptyFields) "name" = some JVal.null :=
  ⟨(pickExportNode_shape (some "x") emptyFields).2.1 "x" rfl,
   (pickExportNode_shape (some "x") emptyFields).2.2.2.1 rfl⟩

theorem pickCandidates_foldl (x y : ℚ) (idx : List RectItem) :
    ∀ acc : List String,
      idx.foldl
          (fun cands it =>
            if rectContainsPt it.rect x y then cands ++ [it.id] else cands)
          acc
        = acc ++ (idx.filter (fun it => rectContainsPt it.rect x y)).map
            (fun it => it.id) := by
  induction idx with
  | nil => intro acc; simp
  | cons it rest ih =>
      intro acc
      cases h : rectContainsPt it.rect x y <;>
        simp [List.foldl_cons, h, ih, List.filter_cons]

theorem rectIndexAll_eq_mergeSort (t : LanhuTree) :
    rectIndexAll t = (rectItemsOf t).mergeSort (fun a b => decide (a.area ≤ b.area)) :=
  rfl

theorem mem_rectItemsOf (t : LanhuTree) (it : RectItem) :
    it ∈ rectItemsOf t ↔
      ((∃ nd, (it.id, nd) ∈ t.nodesById ∧ getNodeRectItem nd = some it.rect) ∧
        it.area = it.rect.width * it.rect.height ∧ 0 < it.area) := by
  unfold rectItemsOf
  rw [List.mem_filterMap]
  constructor
  · rintro ⟨p, hp, hf⟩
    cases hr : getNodeRectItem p.2 with
    | none => rw [hr] at hf; exact absurd hf (by simp)
    | some rect =>
        rw [hr] at hf
        simp only at hf
        by_cases ha : rect.width * rect.height ≤ 0
        · rw [if_pos ha] at hf; exact absurd hf (by simp)
        · rw [if_neg ha] at hf
          obtain rfl := Option.some_injective _ hf
          exact ⟨⟨p.2, hp, hr⟩, rfl, lt_of_not_le ha⟩
  · rintro ⟨⟨nd, hmem, hr⟩, harea, hpos⟩
    refine ⟨(it.id, nd), hmem, ?_⟩
    simp only [hr]
    rw [if_neg (by rw [← harea]; exact not_le.mpr hpos)]
    cases it
    simp only at harea
    simp [harea]

/-- C2: the geometry index contains exactly the nodes whose rectangle resolves
with strictly positive area (finiteness is automatic in this rational model,
where the source's Number.isFinite(area) test cannot fail), sorted ascending
by area; and hit testing returns exactly the index entries whose rectangle
contains the point under inclusive bounds, as ids in ascending-area order,
with the empty list (not an error) when nothing matches. -/
theorem rectIndex_hitTest_spec (t : LanhuTree) (x y : ℚ) :
    ((rectIndexAll t).Pairwise (fun a b => a.area ≤ b.area)) ∧
    (∀ it : RectItem, it ∈ rectIndexAll t ↔
      ((∃ nd, (it.id, nd) ∈ t.nodesById ∧ getNodeRectItem nd = some it.rect) ∧
        it.area = it.rect.width * it.rect.height ∧ 0 < it.area)) ∧
    (pickCandidatesAtPoint (rectIndexAll t) x y =
      ((rectIndexAll t).filter (fun it => rectContainsPt it.rect x y)).map
        (fun it => it.id)) ∧
    (((rectIndexAll t).filter (fun it => rectContainsPt it.rect x y)).Pairwise
      (fun a b => a.area ≤ b.area)) ∧
    ((∀ it ∈ rectIndexAll t, rectContainsPt it.rect x y = false) →
      pickCandidatesAtPoint (rectIndexAll t) x y = []) := by
  have hsorted : (rectIndexAll t).Pairwise (fun a b => a.area ≤ b.area) := by
    rw [rectIndexAll_eq_mergeSort]
    have h := @List.sorted_mergeSort RectItem
      (fun a b : RectItem => decide (a.area ≤ b.area))
      (fun a b c hab hbc => by
        simp only [decide_eq_true_iff] at hab hbc ⊢
        exact le_trans hab hbc)
      (fun a b => by
        rcases le_total a.area b.area with h | h <;> simp [h])
      (rectItemsOf t)
    exact h.imp (fun hab => by simpa using hab)
  have hpick : pickCandidatesAtPoint (rectIndexAll t) x y =
      ((rectIndexAll t).filter (fun it => rectContainsPt it.rect x y)).map
        (fun it => it.id) := by
    unfold pickCandidatesAtPoint
    rw [pickCandidates_foldl]
    simp
  refine ⟨hsorted, fun it => ?_, hpick, ?_, fun hnone => ?_⟩
  · rw [rectIndexAll_eq_mergeSort, List.mem_mergeSort]
    exact mem_rectItemsOf t it
  · exact hsorted.sublist (List.filter_sublist _)
  · rw [hpick, List.filter_eq_nil_iff.mpr (fun it hit => by simp [hnone it hit]),
      List.map_nil]

/-- Witness for C2: on the empty tree nothing matches any point and hit
testing returns the empty list rather than failing. -/
theorem rectIndex_hitTest_spec_witness :
    pickCandidatesAtPoint (rectIndexAll emptyTree) 0 0 = [] :=
  (rectIndex_hitTest_spec emptyTree 0 0).2.2.2.2
    (fun it hit => by simp [rectIndexAll, emptyTree, rectItemsOf] at hit)

theorem mem_setAdd (l : List String) (x y : String) :
    y ∈ setAdd l x ↔ y ∈ l ∨ y = x := by
  unfold setAdd
  by_cases h : x ∈ l
  · rw [if_pos h]
    exact ⟨Or.inl, fun hy => by rcases hy with hy | rfl; exact hy; exact h⟩
  · rw [if_neg h]; simp

theorem mem_containedFold (cr : RectQ) (rectIdx : List RectItem) :
    ∀ (acc : List String) (x : String),
      (x ∈ rectIdx.foldl
          (fun acc it => if isRectInside it.rect cr then setAdd acc it.id else acc)
          acc) ↔
        (x ∈ acc ∨ ∃ it ∈ rectIdx, it.id = x ∧ isRectInside it.rect cr) := by
  induction rectIdx with
  | nil => simp
  | cons it rest ih =>
      intro acc x
      cases h : isRectInside it.rect cr with
      | false =>
          simp only [List.foldl_cons, h, if_false, Bool.false_eq_true, ite_false, ih,
            List.mem_cons]
          constructor
          · rintro (ha | hex)
            · exact Or.inl ha
            · exact Or.inr (by rcases hex with ⟨j, hj, hjx, hjin⟩; exact ⟨j, Or.inr hj, hjx, hjin⟩)
          · rintro (ha | ⟨j, hj | hj, hjx, hjin⟩)
            · exact Or.inl ha
            · subst hj; rw [hjin] at h; cases h
            · exact Or.inr ⟨j, hj, hjx, hjin⟩
      | true =>
          simp only [List.foldl_cons, h, ite_true, ih, mem_setAdd, List.mem_cons]
          constructor
          · rintro ((ha | rfl) | hex)
            · exact Or.inl ha
            · exact Or.inr ⟨it, Or.inl rfl, rfl, h⟩
            · exact Or.inr (by rcases hex with ⟨j, hj, hjx, hjin⟩; exact ⟨j, Or.inr hj, hjx, hjin⟩)
          · rintro (ha | ⟨j, hj | hj, hjx, hjin⟩)
            · exact Or.inl (Or.inl ha)
            · subst hj; exact Or.inl (Or.inr hjx.symm)
            · exact Or.inr ⟨j, hj, hjx, hjin⟩

theorem mem_containedSet (rectIdx : List RectItem) (cr : RectQ)
    (selectedId x : String) :
    x ∈ containedSet rectIdx cr selectedId ↔
      (x = selectedId ∨ ∃ it ∈ rectIdx, it.id = x ∧ isRectInside it.rect cr) := by
  unfold containedSet
  rw [mem_setAdd, mem_containedFold]
  simp [or_comm]

/-- C7: containment export is the only operation with caller-visible failure.
When the container node's rectangle does not resolve the operation performs
nothing and yields the empty result (modelled as none; no exception); when it
resolves, the exported set is exactly the geometry-index ids whose rectangle
is contained (per isRectInside) in the container rectangle, plus the container
id itself, emitted through the preorder walk. -/
theorem exportVisuallyContained_spec (t : LanhuTree) (rectIdx : List RectItem)
    (selectedId : String) (nd : LItem)
    (h : objGet t.nodesById selectedId = some nd) :
    (getNodeRectItem nd = none →
      exportVisuallyContained t rectIdx selectedId = none) ∧
    (∀ cr, getNodeRectItem nd = some cr →
      (exportVisuallyContained t rectIdx selectedId =
        some (getTreePreorderIds t (containedSet rectIdx cr selectedId))) ∧
      (∀ x, x ∈ containedSet rectIdx cr selectedId ↔
        (x = selectedId ∨ ∃ it ∈ rectIdx, it.id = x ∧ isRectInside it.rect cr))) := by
  constructor
  · intro hrect
    unfold exportVisuallyContained
    simp [h, hrect]
  · intro cr hrect
    refine ⟨?_, fun x => mem_containedSet rectIdx cr selectedId x⟩
    unfold exportVisuallyContained
    simp [h, hrect]

/-- Witness for C7: with a resolvable container rectangle the export succeeds
and its id set is the contained ids plus the container itself. -/
theorem exportVisuallyContained_spec_witness :
    (exportVisuallyContained treeW7 rectIdxW7 "A" =
      some (getTreePreorderIds treeW7 (containedSet rectIdxW7 ⟨0, 0, 10, 10⟩ "A"))) ∧
    ("A" ∈ containedSet rectIdxW7 ⟨0, 0, 10, 10⟩ "A" ↔
      ("A" = "A" ∨ ∃ it ∈ rectIdxW7, it.id = "A" ∧ isRectInside it.rect ⟨0, 0, 10, 10⟩)) :=
  ⟨((exportVisuallyContained_spec treeW7 rectIdxW7 "A" (.node (some "A") fieldsW [])
      rfl).2 ⟨0, 0, 10, 10⟩ rfl).1,
   ((exportVisuallyContained_spec treeW7 rectIdxW7 "A" (.node (some "A") fieldsW [])
      rfl).2 ⟨0, 0, 10, 10⟩ rfl).2 "A"⟩

theorem iterParent_succ_left (t : LanhuTree) :
    ∀ (n : Nat) (cur : String),
      iterParent t cur (n + 1) =
        (match lookupParent t cur with
         | none => none
         | some p => iterParent t p n) := by
  intro n
  induction n with
  | zero =>
      intro cur
      show (iterParent t cur 0).bind (fun s => lookupParent t s) = _
      cases h : lookupParent t cur <;> simp [iterParent, h]
  | succ n ih =>
      intro cur
      show (iterParent t cur (n + 1)).bind (fun s => lookupParent t s) = _
      rw [ih cur]
      cases h : lookupParent t cur with
      | none => simp
      | some p => simp [iterParent]

theorem iterParent_add (t : LanhuTree) (cur : String) (m : Nat) :
    ∀ n : Nat,
      iterParent t cur (m + n) =
        (iterParent t cur m).bind (fun s => iterParent t s n) := by
  intro n
  induction n with
  | zero =>
      cases h : iterParent t cur m <;> simp [iterParent, h]
  | succ n ih =>
      show iterParent t cur ((m + n) + 1) = _
      rw [iterParent, ih]
      cases h : iterParent t cur m with
      | none => simp
      | some p => simp [iterParent]

theorem getAncestorIdsAux_succ_none (t : LanhuTree) (cur : String) (fuel : Nat)
    (hl : lookupParent t cur = none) :
    getAncestorIdsAux t cur (fuel + 1) = [] := by
  rw [getAncestorIdsAux, hl]

theorem getAncestorIdsAux_succ_some (t : LanhuTree) (cur : String) (fuel : Nat)
    (p : String) (hl : lookupParent t cur = some p) :
    getAncestorIdsAux t cur (fuel + 1) = p :: getAncestorIdsAux t p fuel := by
  rw [getAncestorIdsAux, hl]

theorem getAncestorIdsAux_getElem (t : LanhuTree) :
    ∀ (fuel : Nat) (cur : String) (i : Nat),
      i < (getAncestorIdsAux t cur fuel).length →
      (getAncestorIdsAux t cur fuel)[i]? = iterParent t cur (i + 1) := by
  intro fuel
  induction fuel with
  | zero => intro cur i h; simp [getAncestorIdsAux] at h
  | succ fuel ih =>
      intro cur i h
      cases hl : lookupParent t cur with
      | none =>
          rw [getAncestorIdsAux_succ_none t cur fuel hl] at h
          simp at h
      | some p =>
          rw [getAncestorIdsAux_succ_some t cur fuel p hl] at h ⊢
          cases i with
          | zero =>
              rw [iterParent_succ_left t 0 cur, hl]
              simp [iterParent]
          | succ i =>
              rw [iterParent_succ_left t (i + 1) cur, hl, List.getElem?_cons_succ]
              exact ih p i (by simpa using h)

theorem getAncestorIdsAux_stable (t : LanhuTree) :
    ∀ (fuel : Nat) (cur : String),
      (getAncestorIdsAux t cur fuel).length < fuel →
      ∀ k : Nat, getAncestorIdsAux t cur (fuel + k) = getAncestorIdsAux t cur fuel := by
  intro fuel
  induction fuel with
  | zero => intro cur h k; simp at h
  | succ fuel ih =>
      intro cur h k
      have hfk : fuel + 1 + k = (fuel + k) + 1 := by omega
      cases hl : lookupParent t cur with
      | none =>
          rw [hfk, getAncestorIdsAux_succ_none t cur (fuel + k) hl,
            getAncestorIdsAux_succ_none t cur fuel hl]
      | some p =>
          rw [getAncestorIdsAux_succ_some t cur fuel p hl] at h
          simp only [List.length_cons] at h
          rw [hfk, getAncestorIdsAux_succ_some t cur (fuel + k) p hl,
            getAncestorIdsAux_succ_some t cur fuel p hl, ih p (by omega) k]

theorem getAncestorIdsAux_iter_next (t : LanhuTree) :
    ∀ (fuel : Nat) (cur : String),
      (getAncestorIdsAux t cur fuel).length < fuel →
      iterParent t cur ((getAncestorIdsAux t cur fuel).length + 1) = none := by
  intro fuel
  induction fuel with
  | zero => intro cur h; simp at h
  | succ fuel ih =>
      intro cur h
      cases hl : lookupParent t cur with
      | none =>
          rw [getAncestorIdsAux_succ_none t cur fuel hl]
          simp only [List.length_nil]
          rw [show (0 : Nat) + 1 = 0 + 1 from rfl, iterParent_succ_left t 0 cur, hl]
      | some p =>
          rw [getAncestorIdsAux_succ_some t cur fuel p hl] at h ⊢
          simp only [List.length_cons] at h ⊢
          rw [iterParent_succ_left t _ cur, hl]
          exact ih p (by omega)

theorem getAncestorIdsAux_nodup (t : LanhuTree) (hac : TreeAcyclic t)
    (fuel : Nat) (cur : String) : (getAncestorIdsAux t cur fuel).Nodup := by
  have key : ∀ i j (hi : i < (getAncestorIdsAux t cur fuel).length)
      (hj : j < (getAncestorIdsAux t cur fuel).length), i < j →
      (getAncestorIdsAux t cur fuel).get ⟨i, hi⟩ =
        (getAncestorIdsAux t cur fuel).get ⟨j, hj⟩ → False := by
    intro i j hi hj hij heq
    set l := getAncestorIdsAux t cur fuel with hldef
    have h1 : l[i]? = iterParent t cur (i + 1) := getAncestorIdsAux_getElem t fuel cur i hi
    have h2 : l[j]? = iterParent t cur (j + 1) := getAncestorIdsAux_getElem t fuel cur j hj
    have e1 : iterParent t cur (i + 1) = some (l.get ⟨i, hi⟩) := by
      rw [← h1, List.getElem?_eq_getElem hi]; simp
    have e2 : iterParent t cur (j + 1) = some (l.get ⟨j, hj⟩) := by
      rw [← h2, List.getElem?_eq_getElem hj]; simp
    have hsplit : j + 1 = (i + 1) + (j - i) := by omega
    rw [hsplit, iterParent_add t cur (i + 1) (j - i), e1] at e2
    simp only [Option.some_bind] at e2
    rw [heq] at e2
    exact hac (l.get ⟨j, hj⟩) (j - i) (by omega) e2
  rw [List.nodup_iff_injective_get]
  intro a b heq
  rcases Nat.lt_trichotomy a.1 b.1 with hab | hab | hab
  · exact absurd heq (fun h => key a.1 b.1 a.2 b.2 hab (by simpa using h))
  · exact Fin.ext hab
  · exact absurd heq.symm (fun h => key b.1 a.1 b.2 a.2 hab (by simpa using h))

theorem lookupParent_mem_keys (t : LanhuTree) (x p : String)
    (h : lookupParent t x = some p) : x ∈ keysOf t.parentById := by
  unfold lookupParent at h
  cases hg : objGet t.parentById x with
  | none => rw [hg] at h; cases h
  | some o =>
      unfold objGet at hg
      cases hf : t.parentById.find? (fun q => q.1 == x) with
      | none => rw [hf] at hg; cases hg
      | some q =>
          have hq1 := List.find?_some hf
          have hmem : q ∈ t.parentById := List.mem_of_find?_eq_some hf
          have hqx : q.1 = x := by simpa using hq1
          exact hqx ▸ List.mem_map_of_mem (fun r => r.1) hmem

theorem getAncestorIdsAux_length_le (t : LanhuTree) (hac : TreeAcyclic t)
    (fuel : Nat) (cur : String) :
    (getAncestorIdsAux t cur fuel).length ≤ t.parentById.length + 1 := by
  set l := getAncestorIdsAux t cur fuel with hldef
  have hnd : l.dropLast.Nodup :=
    (getAncestorIdsAux_nodup t hac fuel cur).sublist (List.dropLast_sublist l)
  have hsub : l.dropLast ⊆ keysOf t.parentById := by
    intro x hx
    rw [List.mem_iff_getElem] at hx
    obtain ⟨i, hilt, hieq⟩ := hx
    have hlen : i < l.length - 1 := by
      have := List.length_dropLast l; omega
    have hi1 : i < l.length := by omega
    have hi2 : i + 1 < l.length := by omega
    have g1 : l[i]? = iterParent t cur (i + 1) :=
      getAncestorIdsAux_getElem t fuel cur i hi1
    have g2 : l[i + 1]? = iterParent t cur (i + 2) :=
      getAncestorIdsAux_getElem t fuel cur (i + 1) hi2
    have e1 : iterParent t cur (i + 1) = some (l.get ⟨i, hi1⟩) := by
      rw [← g1, List.getElem?_eq_getElem hi1, List.get_eq_getElem]
    have e2 : iterParent t cur (i + 2) = some (l.get ⟨i + 1, hi2⟩) := by
      rw [← g2, List.getElem?_eq_getElem hi2, List.get_eq_getElem]
    have hstep : lookupParent t (l.get ⟨i, hi1⟩) = some (l.get ⟨i + 1, hi2⟩) := by
      have : iterParent t cur ((i + 1) + 1) =
          (iterParent t cur (i + 1)).bind (fun s => lookupParent t s) := rfl
      rw [e1] at this
      simp only [Option.some_bind] at this
      rw [← this]
      exact e2
    have hxeq : x = l.get ⟨i, hi1⟩ := by
      rw [← hieq, List.get_eq_getElem, List.getElem_dropLast]
    rw [hxeq]
    exact lookupParent_mem_keys t _ _ hstep
  have hle := (List.subperm_of_subset hnd hsub).length_le
  have h1 : (keysOf t.parentById).length = t.parentById.length := by
    simp [keysOf]
  have h2 := List.length_dropLast l
  omega

/-- C6: for every tree satisfying the forest (no-cycles) invariant and every
id, the ancestors walk terminates: its result has stabilised at the chosen
fuel (more fuel never changes it), the i-th entry is the (i+1)-st iterated
parent (nearest ancestor first), the result is empty exactly when the walk
stops immediately (the id is a root or unknown), and the last entry has no
parent (the root comes last). -/
theorem getAncestorIds_spec (t : LanhuTree) (hac : TreeAcyclic t) (id : String) :
    (∀ k, getAncestorIdsAux t id (t.parentById.length + 2 + k) = getAncestorIds t id) ∧
    (∀ i, i < (getAncestorIds t id).length →
      (getAncestorIds t id)[i]? = iterParent t id (i + 1)) ∧
    (getAncestorIds t id = [] ↔ lookupParent t id = none) ∧
    (∀ h : getAncestorIds t id ≠ [],
      lookupParent t ((getAncestorIds t id).getLast h) = none) := by
  have hbound : (getAncestorIdsAux t id (t.parentById.length + 2)).length <
      t.parentById.length + 2 := by
    have := getAncestorIdsAux_length_le t hac (t.parentById.length + 2) id
    omega
  refine ⟨fun k => getAncestorIdsAux_stable t (t.parentById.length + 2) id hbound k,
    fun i hi => getAncestorIdsAux_getElem t (t.parentById.length + 2) id i hi,
    ?_, ?_⟩
  · constructor
    · intro hemp
      cases hl : lookupParent t id with
      | none => rfl
      | some p =>
          unfold getAncestorIds at hemp
          rw [show t.parentById.length + 2 = (t.parentById.length + 1) + 1 from rfl,
            getAncestorIdsAux_succ_some t id (t.parentById.length + 1) p hl] at hemp
          cases hemp
    · intro hl
      unfold getAncestorIds
      rw [show t.parentById.length + 2 = (t.parentById.length + 1) + 1 from rfl,
        getAncestorIdsAux_succ_none t id (t.parentById.length + 1) hl]
  · intro hne
    set l := getAncestorIds t id with hldef
    have hauxlen : l.length = (getAncestorIdsAux t id (t.parentById.length + 2)).length :=
      rfl
    have hlen : 0 < l.length := List.length_pos.mpr hne
    have hnext : iterParent t id (l.length + 1) = none := by
      rw [hauxlen]
      exact getAncestorIdsAux_iter_next t (t.parentById.length + 2) id hbound
    have hlast : l[l.length - 1]? = iterParent t id (l.length - 1 + 1) :=
      getAncestorIdsAux_getElem t (t.parentById.length + 2) id (l.length - 1)
        (by rw [← hauxlen]; omega)
    have h2 : l[l.length - 1]? = some (l.getLast hne) := by
      rw [List.getLast_eq_getElem]
      exact List.getElem?_eq_getElem (by omega)
    have he : iterParent t id (l.length) = some (l.getLast hne) := by
      have h1 : l.length - 1 + 1 = l.length := by omega
      rw [← h1, ← hlast, h2]
    have hstep : iterParent t id (l.length + 1) =
        (iterParent t id l.length).bind (fun s => lookupParent t s) := rfl
    rw [hnext, he] at hstep
    simp only [Option.some_bind] at hstep
    exact hstep.symm

theorem treeW6_lookup (x : String) :
    lookupParent treeW6 x = if x = "B" then some "A" else none := by
  by_cases h : x = "B"
  · subst h; rfl
  · rw [if_neg h]
    by_cases h2 : x = "A"
    · subst h2; rfl
    · have hb : (("B" : String) == x) = false := by
        simp only [beq_eq_false_iff_ne, ne_eq]
        exact fun e => h e.symm
      have ha : (("A" : String) == x) = false := by
        simp only [beq_eq_false_iff_ne, ne_eq]
        exact fun e => h2 e.symm
      simp [lookupParent, objGet, treeW6, List.find?, hb, ha]

theorem treeW6_acyclic : TreeAcyclic treeW6 := by
  have h2 : ∀ x, iterParent treeW6 x 2 = none := by
    intro x
    rw [show (2 : Nat) = 1 + 1 from rfl, iterParent_succ_left, treeW6_lookup]
    by_cases hx : x = "B"
    · rw [if_pos hx]
      show iterParent treeW6 "A" 1 = none
      rw [show (1 : Nat) = 0 + 1 from rfl, iterParent_succ_left, treeW6_lookup]
      simp
    · rw [if_neg hx]
  have hmain : ∀ (n : Nat) (x : String), iterParent treeW6 x (n + 2) = none := by
    intro n
    induction n with
    | zero => exact h2
    | succ n ih =>
        intro x
        show (iterParent treeW6 x (n + 2)).bind _ = none
        rw [ih x]
        rfl
  intro id k hk heq
  match k, hk with
  | 1, _ =>
      rw [show (1 : Nat) = 0 + 1 from rfl, iterParent_succ_left, treeW6_lookup] at heq
      by_cases hx : id = "B"
      · rw [if_pos hx] at heq
        simp only [iterParent] at heq
        rw [hx] at heq
        exact absurd (Option.some_injective _ heq) (by decide)
      · rw [if_neg hx] at heq; cases heq
  | (n + 2), _ =>
      rw [hmain n id] at heq; cases heq

/-- Witness for C6: on a concrete acyclic two-node tree the walk from B has
stabilised and lists A (the root) as the only ancestor. -/
theorem getAncestorIds_spec_witness :
    getAncestorIdsAux treeW6 "B" (treeW6.parentById.length + 2 + 0) =
      getAncestorIds treeW6 "B" :=
  (getAncestorIds_spec treeW6 treeW6_acyclic "B").1 0

theorem itemSize_pos (it : LItem) : 1 ≤ itemSize it := by
  cases it <;> simp [itemSize]

theorem objGet_of_mem_nodup (k : String) (v : α) :
    ∀ g : List (String × α), (keysOf g).Nodup → (k, v) ∈ g → objGet g k = some v := by
  intro g
  induction g with
  | nil => intro _ hm; cases hm
  | cons q rest ih =>
      intro hnd hm
      have hnd2 : (keysOf rest).Nodup := by
        simp only [keysOf, List.map_cons, List.nodup_cons] at hnd
        exact hnd.2
      rcases List.mem_cons.mp hm with heq | hmem
      · subst heq
        simp [objGet, List.find?]
      · have hk : k ∈ keysOf rest := List.mem_map_of_mem (fun r => r.1) hmem
        have hq1 : q.1 ≠ k := by
          intro he
          simp only [keysOf, List.map_cons, List.nodup_cons] at hnd
          exact hnd.1 (he ▸ hk)
        have hb : (q.1 == k) = false := by simpa using hq1
        simp only [objGet, List.find?, hb]
        exact ih hnd2 hmem

theorem rankOf_of_mem_nodup (g : List (String × Nat)) (hnd : (keysOf g).Nodup)
    (k : String) (v : Nat) (hm : (k, v) ∈ g) : rankOf g k = v := by
  rw [rankOf, objGet_of_mem_nodup k v g hnd hm, Option.getD_some]

theorem mem_objSet (m : List (String × α)) (k : String) (v : α) :
    ∀ q ∈ objSet m k v, q = (k, v) ∨ q ∈ m := by
  intro q hq
  unfold objSet at hq
  by_cases h : m.any (fun p => p.1 == k)
  · rw [if_pos h] at hq
    rw [List.mem_map] at hq
    obtain ⟨p, hp, hfp⟩ := hq
    by_cases hpk : (p.1 == k) = true
    · rw [if_pos hpk] at hfp; exact Or.inl hfp.symm
    · rw [if_neg (by simpa using hpk)] at hfp; exact Or.inr (hfp ▸ hp)
  · rw [if_neg h] at hq
    rcases List.mem_append.mp hq with hq2 | hq2
    · exact Or.inr hq2
    · exact Or.inl (by simpa using hq2)

theorem mem_keysOf_objSet_self (m : List (String × α)) (k : String) (v : α) :
    k ∈ keysOf (objSet m k v) := by
  rw [keysOf_objSet]
  by_cases h : (keysOf m).any (fun s => s == k)
  · rw [if_pos h]
    rcases List.any_eq_true.mp h with ⟨s, hs, hsk⟩
    exact (by simpa using hsk : s = k) ▸ hs
  · rw [if_neg h]
    simp

theorem mem_keysOf_objSet_mono (m : List (String × α)) (k : String) (v : α)
    (x : String) (hx : x ∈ keysOf m) : x ∈ keysOf (objSet m k v) := by
  rw [keysOf_objSet]
  by_cases h : (keysOf m).any (fun s => s == k)
  · rw [if_pos h]; exact hx
  · rw [if_neg h]; exact List.mem_append_left _ hx

theorem objGet_mem (m : List (String × α)) (k : String) (l : α)
    (h : objGet m k = some l) : (k, l) ∈ m := by
  unfold objGet at h
  cases hf : m.find? (fun p => p.1 == k) with
  | none => rw [hf] at h; cases h
  | some q =>
      rw [hf] at h
      have hq1 := List.find?_some hf
      have hmem := List.mem_of_find?_eq_some hf
      have hqk : q.1 = k := by simpa using hq1
      have hql : q.2 = l := by simpa using h
      have : q = (k, l) := Prod.ext hqk hql
      exact this ▸ hmem

theorem mem_objPush (m : List (String × List String)) (k : String) (v : String) :
    ∀ p ∈ objPush m k v, ∀ c ∈ p.2, c = v ∨ ∃ q ∈ m, c ∈ q.2 := by
  intro p hp c hc
  unfold objPush at hp
  cases hg : objGet m k with
  | some l =>
      rw [hg] at hp
      rcases mem_objSet m k (l ++ [v]) p hp with heq | hmem
      · subst heq
        rcases List.mem_append.mp hc with hc2 | hc2
        · exact Or.inr ⟨(k, l), objGet_mem m k l hg, hc2⟩
        · exact Or.inl (by simpa using hc2)
      · exact Or.inr ⟨p, hmem, hc⟩
  | none =>
      rw [hg] at hp
      rcases mem_objSet m k [v] p hp with heq | hmem
      · subst heq
        exact Or.inl (by simpa using hc)
      · exact Or.inr ⟨p, hmem, hc⟩

theorem keysOf_append (a b : List (String × α)) :
    keysOf (a ++ b) = keysOf a ++ keysOf b := by
  simp [keysOf]

theorem depthMap_keys_aux :
    ∀ sz : Nat,
      (∀ it : LItem, itemSize it ≤ sz → ∀ d,
        keysOf (depthMap it d) = collectIds it) ∧
      (∀ ls : List LItem, listSize ls ≤ sz → ∀ d,
        keysOf (depthMapList ls d) = collectList ls) := by
  intro sz
  induction sz with
  | zero =>
      refine ⟨fun it hit => absurd hit (by have := itemSize_pos it; omega), ?_⟩
      intro ls hls d
      cases ls with
      | nil => rfl
      | cons n ns =>
          exact absurd hls (by simp only [listSize]; have := itemSize_pos n; omega)
  | succ sz ih =>
      have hitem : ∀ it : LItem, itemSize it ≤ sz + 1 → ∀ d,
          keysOf (depthMap it d) = collectIds it := by
        intro it hit d
        cases it with
        | nonObj => rfl
        | node id f layers =>
            cases hv : validId id with
            | none => simp [depthMap, collectIds, hv, keysOf]
            | some i =>
                have hls : listSize layers ≤ sz := by
                  simp only [itemSize] at hit; omega
                simp only [depthMap, collectIds, hv]
                show i :: keysOf (depthMapList layers (d + 1)) = i :: collectList layers
                rw [ih.2 layers hls (d + 1)]
      refine ⟨hitem, ?_⟩
      intro ls hls d
      cases ls with
      | nil => rfl
      | cons n ns =>
          have h1 : itemSize n ≤ sz + 1 := by
            simp only [listSize] at hls; omega
          have h2 : listSize ns ≤ sz := by
            simp only [listSize] at hls; have := itemSize_pos n; omega
          show keysOf (depthMap n d ++ depthMapList ns d) = collectIds n ++ collectList ns
          rw [keysOf_append, hitem n h1 d, ih.2 ns h2 d]

theorem depthMap_keys (it : LItem) (d : Nat) :
    keysOf (depthMap it d) = collectIds it :=
  (depthMap_keys_aux (itemSize it)).1 it le_rfl d

theorem topId_depthMap (n : LItem) (j : String) (d : Nat) (h : topId n = some j) :
    (j, d) ∈ depthMap n d := by
  cases n with
  | nonObj => cases h
  | node id f layers =>
      simp only [topId] at h
      simp [depthMap, h]

theorem descOK_of_nodup_aux :
    ∀ sz : Nat,
      (∀ it : LItem, itemSize it ≤ sz →
        ∀ (g : List (String × Nat)) (d : Nat), (keysOf g).Nodup →
          (∀ p ∈ depthMap it d, p ∈ g) → DescOK (rankOf g) it) ∧
      (∀ ls : List LItem, listSize ls ≤ sz →
        ∀ (g : List (String × Nat)) (d : Nat), (keysOf g).Nodup →
          (∀ p ∈ depthMapList ls d, p ∈ g) →
          DescListOK (rankOf g) ls ∧ ∀ j ∈ ls.filterMap topId, rankOf g j = d) := by
  intro sz
  induction sz with
  | zero =>
      refine ⟨fun it hit => absurd hit (by have := itemSize_pos it; omega), ?_⟩
      intro ls hls g d hnd hsub
      cases ls with
      | nil => exact ⟨trivial, by simp⟩
      | cons n ns =>
          exact absurd hls (by simp only [listSize]; have := itemSize_pos n; omega)
  | succ sz ih =>
      have hitem : ∀ it : LItem, itemSize it ≤ sz + 1 →
          ∀ (g : List (String × Nat)) (d : Nat), (keysOf g).Nodup →
            (∀ p ∈ depthMap it d, p ∈ g) → DescOK (rankOf g) it := by
        intro it hit g d hnd hsub
        cases it with
        | nonObj => trivial
        | node id f layers =>
            cases hv : validId id with
            | none => simp [DescOK, hv]
            | some i =>
                have hls : listSize layers ≤ sz := by
                  simp only [itemSize] at hit; omega
                have hsub2 : ∀ p ∈ depthMapList layers (d + 1), p ∈ g := by
                  intro p hp
                  apply hsub
                  simp only [depthMap, hv, List.mem_cons]
                  exact Or.inr hp
                have hrec := ih.2 layers hls g (d + 1) hnd hsub2
                have hranki : rankOf g i = d := by
                  apply rankOf_of_mem_nodup g hnd
                  apply hsub
                  simp [depthMap, hv]
                simp only [DescOK, hv]
                refine ⟨?_, hrec.1⟩
                intro j hj
                rw [hranki, hrec.2 j hj]
                omega
      refine ⟨hitem, ?_⟩
      intro ls hls g d hnd hsub
      cases ls with
      | nil => exact ⟨trivial, by simp⟩
      | cons n ns =>
          have h1 : itemSize n ≤ sz + 1 := by
            simp only [listSize] at hls; omega
          have h2 : listSize ns ≤ sz := by
            simp only [listSize] at hls; have := itemSize_pos n; omega
          have hsubn : ∀ p ∈ depthMap n d, p ∈ g := by
            intro p hp
            apply hsub
            show p ∈ depthMap n d ++ depthMapList ns d
            exact List.mem_append_left _ hp
          have hsubns : ∀ p ∈ depthMapList ns d, p ∈ g := by
            intro p hp
            apply hsub
            show p ∈ depthMap n d ++ depthMapList ns d
            exact List.mem_append_right _ hp
          have hns := ih.2 ns h2 g d hnd hsubns
          refine ⟨⟨hitem n h1 g d hnd hsubn, hns.1⟩, ?_⟩
          intro j hj
          rw [List.filterMap_cons] at hj
          cases ht : topId n with
          | none => rw [ht] at hj; exact hns.2 j hj
          | some j2 =>
              rw [ht] at hj
              rcases List.mem_cons.mp hj with heq | hmem
              · subst heq
                exact rankOf_of_mem_nodup g hnd j d (hsubn _ (topId_depthMap n j d ht))
              · exact hns.2 j hmem

theorem processNode_refOK (st : TState) (pid : String) (n : LItem)
    (h : stRefOK st) : stRefOK (processNode st pid n).1 := by
  cases n with
  | nonObj => exact h
  | node id f layers =>
      cases hv : validId id with
      | none => simp only [processNode, hv]; exact h
      | some i =>
          have hgoal : stRefOK
              { nodesById := objSet st.nodesById i (.node id f layers)
                parentById := objSet st.parentById i (some pid)
                childrenById := objPush st.childrenById pid i } := by
            constructor
            · intro p hp c hc
              rcases mem_objPush st.childrenById pid i p hp c hc with rfl | ⟨q, hq, hcq⟩
              · exact mem_keysOf_objSet_self _ _ _
              · exact mem_keysOf_objSet_mono _ _ _ _ (h.1 q hq c hcq)
            · intro q hq
              rcases mem_objSet st.parentById i (some pid) q hq with rfl | hmem
              · exact mem_keysOf_objSet_self _ _ _
              · exact mem_keysOf_objSet_mono _ _ _ _ (h.2 q hmem)
          simp only [processNode, hv]
          split <;> exact hgoal

theorem processFrame_refOK (pid : String) :
    ∀ (ns : List LItem) (st : TState), stRefOK st →
      stRefOK (processFrame st pid ns).1 := by
  intro ns
  induction ns with
  | nil => intro st h; exact h
  | cons n rest ih =>
      intro st h
      exact ih _ (processNode_refOK st pid n h)

theorem runStack_refOK :
    ∀ (n : Nat) (stack : List (String × List LItem)), stackMeasure stack ≤ n →
      ∀ st : TState, stRefOK st → stRefOK (runStack st stack) := by
  intro n
  induction n with
  | zero =>
      intro stack hm st h
      cases stack with
      | nil => simpa [runStack] using h
      | cons f rest => simp [stackMeasure] at hm
  | succ n ih =>
      intro stack hm st h
      cases stack with
      | nil => simpa [runStack] using h
      | cons f rest =>
          obtain ⟨pid, nodes⟩ := f
          rw [runStack_cons]
          apply ih
          · have := stackMeasure_step st pid nodes rest; omega
          · exact processFrame_refOK pid nodes st h

theorem processNode_rank (rank : String → Nat) (st : TState) (pid : String)
    (n : LItem) (hst : rankLt rank st)
    (htop : ∀ j, topId n = some j → rank pid < rank j)
    (hdesc : DescOK rank n) :
    rankLt rank (processNode st pid n).1 ∧
    ∀ fr ∈ (processNode st pid n).2, frameOK rank fr := by
  cases n with
  | nonObj => exact ⟨hst, by intro fr hfr; simp [processNode] at hfr⟩
  | node id f layers =>
      cases hv : validId id with
      | none =>
          simp only [processNode, hv]
          exact ⟨hst, by intro fr hfr; simp at hfr⟩
      | some i =>
          have hpid_i : rank pid < rank i := htop i (by simp [topId, hv])
          have hdesc2 : (∀ j ∈ layers.filterMap topId, rank i < rank j) ∧
              DescListOK rank layers := by
            simpa [DescOK, hv] using hdesc
          have hrank2 : rankLt rank
              { nodesById := objSet st.nodesById i (.node id f layers)
                parentById := objSet st.parentById i (some pid)
                childrenById := objPush st.childrenById pid i } := by
            intro q hq p hp
            rcases mem_objSet st.parentById i (some pid) q hq with rfl | hmem
            · have hpp : pid = p := Option.some_injective _ hp
              rw [← hpp]
              exact hpid_i
            · exact hst q hmem p hp
          simp only [processNode, hv]
          split
          · exact ⟨hrank2, by intro fr hfr; simp at hfr⟩
          · refine ⟨hrank2, ?_⟩
            intro fr hfr
            simp only [List.mem_singleton] at hfr
            subst hfr
            exact ⟨hdesc2.1, hdesc2.2⟩

theorem processFrame_rank (rank : String → Nat) (pid : String) :
    ∀ (ns : List LItem) (st : TState), rankLt rank st →
      (∀ j ∈ ns.filterMap topId, rank pid < rank j) →
      DescListOK rank ns →
      rankLt rank (processFrame st pid ns).1 ∧
      ∀ fr ∈ (processFrame st pid ns).2, frameOK rank fr := by
  intro ns
  induction ns with
  | nil =>
      intro st h _ _
      exact ⟨h, by intro fr hfr; simp [processFrame] at hfr⟩
  | cons n rest ih =>
      intro st hst htop hdesc
      have hdl : DescOK rank n ∧ DescListOK rank rest := by
        simpa [DescListOK] using hdesc
      have htopn : ∀ j, topId n = some j → rank pid < rank j := by
        intro j hj
        apply htop
        rw [List.filterMap_cons, hj]
        exact List.mem_cons_self _ _
      have htop2 : ∀ j ∈ rest.filterMap topId, rank pid < rank j := by
        intro j hj
        apply htop
        rw [List.filterMap_cons]
        cases ht : topId n with
        | none => exact hj
        | some a => exact List.mem_cons_of_mem _ hj
      have hn := processNode_rank rank st pid n hst htopn hdl.1
      have hr := ih (processNode st pid n).1 hn.1 htop2 hdl.2
      refine ⟨hr.1, ?_⟩
      intro fr hfr
      have hfr2 : fr ∈ (processNode st pid n).2 ++
          (processFrame (processNode st pid n).1 pid rest).2 := hfr
      rcases List.mem_append.mp hfr2 with h1 | h2
      · exact hn.2 fr h1
      · exact hr.2 fr h2

theorem runStack_rank (rank : String → Nat) :
    ∀ (n : Nat) (stack : List (String × List LItem)), stackMeasure stack ≤ n →
      ∀ st : TState, rankLt rank st → (∀ fr ∈ stack, frameOK rank fr) →
        rankLt rank (runStack st stack) := by
  intro n
  induction n with
  | zero =>
      intro stack hm st h _
      cases stack with
      | nil => simpa [runStack] using h
      | cons f rest => simp [stackMeasure] at hm
  | succ n ih =>
      intro stack hm st h hfr
      cases stack with
      | nil => simpa [runStack] using h
      | cons f rest =>
          obtain ⟨pid, nodes⟩ := f
          rw [runStack_cons]
          have hthis := hfr (pid, nodes) (List.mem_cons_self _ _)
          have hpf := processFrame_rank rank pid nodes st h hthis.1 hthis.2
          apply ih
          · have := stackMeasure_step st pid nodes rest; omega
          · exact hpf.1
          · intro fr hfr2
            rcases List.mem_append.mp hfr2 with h1 | h2
            · exact hpf.2 fr (List.mem_reverse.mp h1)
            · exact hfr fr (List.mem_cons_of_mem _ h2)

theorem lookupParent_rank (t : LanhuTree) (rank : String → Nat)
    (hrank : ∀ q ∈ t.parentById, ∀ p, q.2 = some p → rank p < rank q.1)
    (x p : String) (h : lookupParent t x = some p) : rank p < rank x := by
  unfold lookupParent at h
  cases hg : objGet t.parentById x with
  | none => rw [hg] at h; cases h
  | some o =>
      rw [hg] at h
      cases o with
      | none => cases h
      | some p2 =>
          have h2 : (if p2 = "" then none else some p2 : Option String) = some p := h
          by_cases hp2 : p2 = ""
          · rw [if_pos hp2] at h2; cases h2
          · rw [if_neg hp2] at h2
            obtain rfl := Option.some_injective _ h2
            exact hrank (x, some p2) (objGet_mem t.parentById x (some p2) hg) p2 rfl

theorem iterParent_rank (t : LanhuTree) (rank : String → Nat)
    (hrank : ∀ q ∈ t.parentById, ∀ p, q.2 = some p → rank p < rank q.1) :
    ∀ (n : Nat) (a b : String), iterParent t a n = some b → rank b + n ≤ rank a := by
  intro n
  induction n with
  | zero =>
      intro a b h
      obtain rfl := Option.some_injective _ h.symm
      omega
  | succ n ih =>
      intro a b h
      rw [iterParent] at h
      cases hn : iterParent t a n with
      | none => rw [hn] at h; cases h
      | some c =>
          rw [hn] at h
          simp only [Option.some_bind] at h
          have h1 := ih a c hn
          have h2 := lookupParent_rank t rank hrank c b h
          omega

theorem treeAcyclic_of_rank (t : LanhuTree) (rank : String → Nat)
    (hrank : ∀ q ∈ t.parentById, ∀ p, q.2 = some p → rank p < rank q.1) :
    TreeAcyclic t := by
  intro id k hk heq
  have := iterParent_rank t rank hrank k id id heq
  omega

theorem emptyTree_refIntegrity : RefIntegrity emptyTree :=
  ⟨fun p hp => absurd hp (List.not_mem_nil p), fun q hq => absurd hq (List.not_mem_nil q)⟩

theorem emptyTree_acyclic : TreeAcyclic emptyTree := by
  intro id k hk heq
  cases k with
  | zero => omega
  | succ n =>
      rw [iterParent] at heq
      cases hn : iterParent emptyTree id n with
      | none => rw [hn] at heq; cases heq
      | some c =>
          rw [hn] at heq
          simp only [Option.some_bind] at heq
          rw [show lookupParent emptyTree c = none from rfl] at heq
          cases heq

/-- C1 (amended): for every input document the tree built by parseLanhuTree
satisfies referential integrity (every id in any childrenById child list and
every key of parentById is a key of nodesById); and whenever no two traversed
valid nodes of the document share an id, the parent relation is additionally
acyclic (the structure is a forest). Acyclicity does not hold unconditionally:
a duplicated id makes parentById cyclic (see the counterexample). -/
theorem parseLanhuTree_invariants (doc : SketchJson) :
    RefIntegrity (parseLanhuTree doc) ∧
    ((docIds doc).Nodup → TreeAcyclic (parseLanhuTree doc)) := by
  cases hart : doc.artboard with
  | none =>
      have he : parseLanhuTree doc = emptyTree := by simp [parseLanhuTree, hart]
      rw [he]
      exact ⟨emptyTree_refIntegrity, fun _ => emptyTree_acyclic⟩
  | some it =>
      cases it with
      | nonObj =>
          have he : parseLanhuTree doc = emptyTree := by simp [parseLanhuTree, hart]
          rw [he]
          exact ⟨emptyTree_refIntegrity, fun _ => emptyTree_acyclic⟩
      | node id f layers =>
          cases hv : validId id with
          | none =>
              have he : parseLanhuTree doc = emptyTree := by
                simp [parseLanhuTree, hart, hv]
              rw [he]
              exact ⟨emptyTree_refIntegrity, fun _ => emptyTree_acyclic⟩
          | some rid =>
              set st0 : TState :=
                { nodesById := [(rid, .node id f layers)]
                  childrenById := []
                  parentById := [(rid, none)] } with hst0
              set stack0 : List (String × List LItem) :=
                if layers.isEmpty then [] else [(rid, layers)] with hstack0
              have he : parseLanhuTree doc =
                  ⟨(runStack st0 stack0).nodesById, (runStack st0 stack0).childrenById,
                   (runStack st0 stack0).parentById, [rid]⟩ := by
                simp [parseLanhuTree, hart, hv, hst0, hstack0]
              rw [he]
              constructor
              · have h0 : stRefOK st0 := by
                  constructor
                  · intro p hp
                    rw [hst0] at hp
                    cases hp
                  · intro q hq
                    rw [hst0] at hq
                    rcases List.mem_singleton.mp hq with rfl
                    simp [keysOf]
                have hfin := runStack_refOK (stackMeasure stack0) stack0 le_rfl st0 h0
                exact ⟨fun p hp c hc => hfin.1 p hp c hc, fun q hq => hfin.2 q hq⟩
              · intro hnd
                have hids : docIds doc = collectIds (.node id f layers) := by
                  simp [docIds, hart]
                rw [hids] at hnd
                set g := depthMap (.node id f layers) 0 with hg
                have hkeys : keysOf g = collectIds (.node id f layers) :=
                  depthMap_keys _ 0
                have hgnd : (keysOf g).Nodup := by rw [hkeys]; exact hnd
                set rank := rankOf g with hrankdef
                have hdesc : DescOK rank (.node id f layers) :=
                  (descOK_of_nodup_aux (itemSize (.node id f layers))).1 _ le_rfl g 0
                    hgnd (fun p hp => hp)
                have hdesc2 : (∀ j ∈ layers.filterMap topId, rank rid < rank j) ∧
                    DescListOK rank layers := by
                  simpa [DescOK, hv] using hdesc
                have h0 : rankLt rank st0 := by
                  intro q hq p hp
                  rw [hst0] at hq
                  rcases List.mem_singleton.mp hq with rfl
                  cases hp
                have hfr0 : ∀ fr ∈ stack0, frameOK rank fr := by
                  intro fr hfr
                  rw [hstack0] at hfr
                  cases hl : layers.isEmpty
                  · rw [hl] at hfr
                    simp only [Bool.false_eq_true, ite_false, List.mem_singleton] at hfr
                    subst hfr
                    exact ⟨hdesc2.1, hdesc2.2⟩
                  · rw [hl] at hfr
                    simp at hfr
                have hfin := runStack_rank rank (stackMeasure stack0) stack0 le_rfl st0
                  h0 hfr0
                exact treeAcyclic_of_rank _ rank (fun q hq p hp => hfin q hq p hp)

theorem parseLanhuTree_parent_cex :
    (parseLanhuTree docC1).parentById = [("A", some "B"), ("B", some "A")] := by
  simp [docC1, parseLanhuTree, validId, runStack, processFrame, processNode,
    objSet, objPush, objGet, emptyFields]

/-- Counterexample for C1: on the duplicate-id document the id A is its own
ancestor after two parent steps, so the built structure is not acyclic (and
the unboundedly-quantified claim is false). -/
theorem parseLanhuTree_acyclic_cex : ¬ TreeAcyclic (parseLanhuTree docC1) := by
  intro h
  apply h "A" 2 (by omega)
  have hA : lookupParent (parseLanhuTree docC1) "A" = some "B" := by
    simp [lookupParent, objGet, parseLanhuTree_parent_cex, List.find?]
  have hB : lookupParent (parseLanhuTree docC1) "B" = some "A" := by
    simp [lookupParent, objGet, parseLanhuTree_parent_cex, List.find?]
  rw [show (2 : Nat) = 1 + 1 from rfl, iterParent_succ_left, hA]
  show iterParent (parseLanhuTree docC1) "B" 1 = some "A"
  rw [show (1 : Nat) = 0 + 1 from rfl, iterParent_succ_left, hB]
  rfl

/-- Witness for C1: the witness document has no duplicate ids, and its built
tree is acyclic. -/
theorem parseLanhuTree_invariants_witness :
    (docIds docW1).Nodup ∧ TreeAcyclic (parseLanhuTree docW1) :=
  ⟨by decide, (parseLanhuTree_invariants docW1).2 (by decide)⟩

end WxtLanhu
